import Mathlib

/-!
Shallow embedding of the `vue-unused` dependency-resolution core
(`src/bin/cli.js` analyzer section, `src/lib/bundle-analyzer.js`,
and the Vue SFC helper module), together with theorems settling the
frozen specification claims.

Conventions of the embedding:
* File-system state is explicit: a `Fs` value lists the existing file
  and directory paths; `fs.promises.access` (via `cachedExists`, a pure
  memoisation) succeeds exactly on listed paths of either kind.
* POSIX path arithmetic (`path.resolve`, `path.join`, `path.dirname`)
  is modelled over `/`-separated segments; all base paths supplied by
  the analyzer are absolute, matching the tool's runtime inputs.
* Babel parsing is an external capability: a script region is embedded
  post-parse as the list of AST facts the two traversals consume
  (import declarations with their bindings, literal dynamic `import()`
  and `require()` calls).  `parseOk = false` models a parse failure,
  which makes both traversals contribute nothing, as in the source.
* The two template regexes of the SFC helper are embedded as
  character-level scanners with the exact semantics of global
  `RegExp.exec` on those patterns.
-/

namespace VueUnused

/-- A file system: the set of existing files and existing directories.
`fs.promises.access` (and `fs.existsSync`) succeed on both kinds. -/
structure Fs where
  files : List String
  dirs : List String
deriving Repr

/-- Existence probe used by `cachedExists` in `src/bin/cli.js`: the cache is
pure memoisation, so the semantics is plain existence (file or directory). -/
def Fs.pathExists (fs : Fs) (p : String) : Bool :=
  decide (p ∈ fs.files) || decide (p ∈ fs.dirs)

/-- Split a path on `/` separators (every occurrence, keeping empty parts,
like `String.splitOn "/"`). -/
def splitSegsAux : List Char → List Char → List (List Char)
  | [], cur => [cur.reverse]
  | '/' :: rest, cur => cur.reverse :: splitSegsAux rest []
  | c :: rest, cur => splitSegsAux rest (c :: cur)

def splitSegs (p : String) : List String :=
  (splitSegsAux p.data []).map String.mk

/-- Resolve `.`/`..`/empty segments the way POSIX `path.resolve` does for
absolute paths (`..` at the root stays at the root). -/
def normSegs (segs : List String) : List String :=
  segs.foldl
    (fun acc seg =>
      if seg = "" then acc
      else if seg = "." then acc
      else if seg = ".." then acc.dropLast
      else acc ++ [seg])
    []

def joinSegs (segs : List String) : String :=
  "/" ++ String.intercalate "/" segs

/-- Normalise an absolute path string. -/
def pathNorm (p : String) : String :=
  joinSegs (normSegs (splitSegs p))

def strStartsWith (s pre : String) : Bool :=
  pre.data.isPrefixOf s.data

def strEndsWith (s suf : String) : Bool :=
  suf.data.isSuffixOf s.data

/-- `path.resolve(base, p)` for an absolute, already-normalised `base`. -/
def pathResolve (base p : String) : String :=
  if strStartsWith p "/" then pathNorm p else pathNorm (base ++ "/" ++ p)

/-- `path.join(a, b)` for an absolute `a`. -/
def pathJoin (a b : String) : String :=
  pathNorm (a ++ "/" ++ b)

/-- `path.dirname` for an absolute path. -/
def dirname (p : String) : String :=
  joinSegs ((normSegs (splitSegs p)).dropLast)

/-- `s.slice(n)` for ASCII strings. -/
def strDrop (s : String) (n : Nat) : String :=
  String.mk (s.data.drop n)

/-- `.replace(/^\//, "")`: strip a single leading slash. -/
def stripLeadingSlash (s : String) : String :=
  if strStartsWith s "/" then strDrop s 1 else s

/-! ## Script regions (post-Babel-parse embedding) -/

/-- One binding introduced by an `import` declaration.  Only default
bindings are consumed by `getImportedComponents`. -/
inductive ImportBinding
  | defaultBinding (localName : String)
  | namedBinding (localName : String)
  | namespaceBinding (localName : String)
deriving DecidableEq, Repr

/-- The argument of a call expression, as the extractor sees it: a string
literal or anything else (computed arguments are not tracked). -/
inductive CallArg
  | strLit (s : String)
  | nonLit
deriving DecidableEq, Repr

/-- The AST facts consumed by the two Babel traversals, in source order. -/
inductive ScriptItem
  | importDecl (source : String) (bindings : List ImportBinding)
  | importCall (arg : CallArg)
  | requireCall (arg : CallArg)
  | otherCode
deriving DecidableEq, Repr

/-- A script region.  `parseOk = false` models a Babel parse failure: both
`extractImports` and `getImportedComponents` then contribute nothing. -/
structure Script where
  parseOk : Bool
  items : List ScriptItem
deriving DecidableEq, Repr

/-- `Set.add` on a list kept in first-insertion order. -/
def setAdd (l : List String) (s : String) : List String :=
  if s ∈ l then l else l ++ [s]

/-- `extractImports` (analyzer): sources of static import declarations plus
string-literal arguments of dynamic `import()` and `require()` calls.
A parse failure contributes zero specifiers. -/
def extractImports (s : Script) : List String :=
  if s.parseOk = false then []
  else
    s.items.foldl
      (fun acc item =>
        match item with
        | .importDecl src _ => setAdd acc src
        | .importCall (.strLit a) => setAdd acc a
        | .requireCall (.strLit a) => setAdd acc a
        | _ => acc)
      []

/-- JS `Map.set`: overwrite in place when the key exists, else append. -/
def mapSet (m : List (String × String)) (k v : String) : List (String × String) :=
  if m.any (fun p => p.1 = k) then
    m.map (fun p => if p.1 = k then (k, v) else p)
  else m ++ [(k, v)]

/-- JS `Map.get` (with `Map.has` being `isSome` of this). -/
def mapGet (m : List (String × String)) (k : String) : Option String :=
  (m.find? (fun p => p.1 = k)).map (fun p => p.2)

/-- `getImportedComponents` (SFC helper): map each default-import local
binding name to the import source it came from. -/
def getImportedComponents (s : Script) : List (String × String) :=
  if s.parseOk = false then []
  else
    s.items.foldl
      (fun m item =>
        match item with
        | .importDecl src bindings =>
            bindings.foldl
              (fun m b =>
                match b with
                | .defaultBinding name => mapSet m name src
                | _ => m)
              m
        | _ => m)
      []

/-! ## Template tag extraction (`getTemplateTags` of the SFC helper)

The source uses two global regexes over the raw template text:
a tag pattern requiring an initial uppercase letter, and an
`:is="..."` pattern whose value must itself be a quoted string
literal.  Both are embedded as one-pass character scanners with the
exact non-overlapping `exec` semantics. -/

def squote : Char := Char.ofNat 39

def dquote : Char := Char.ofNat 34

/-- The character class of the tag pattern's captured run. -/
def isTagChar (c : Char) : Bool :=
  c.isAlpha || c.isDigit || c = '-'

/-- State of the tag scanner: between matches, just after a `<`, or inside
a captured run (accumulated in reverse). -/
inductive TagScanState
  | idle
  | sawLt
  | capturing (acc : List Char)
deriving DecidableEq, Repr

/-- One step of the scanner for the tag pattern.  A capture ends at the
first non-tag character, which is then re-examined as a fresh scan head
(global `exec` resumes right after the captured run). -/
def tagStep (st : TagScanState) (c : Char) : TagScanState × Option String :=
  match st with
  | .idle => (if c = '<' then .sawLt else .idle, none)
  | .sawLt =>
      if c.isUpper then (.capturing [c], none)
      else (if c = '<' then .sawLt else .idle, none)
  | .capturing acc =>
      if isTagChar c then (.capturing (c :: acc), none)
      else (if c = '<' then .sawLt else .idle, some (String.mk acc.reverse))

def scanTagsGo (st : TagScanState) : List Char → List String
  | [] =>
      match st with
      | .capturing acc => [String.mk acc.reverse]
      | _ => []
  | c :: rest =>
      match tagStep st c with
      | (st', some t) => t :: scanTagsGo st' rest
      | (st', none) => scanTagsGo st' rest

def scanTags (l : List Char) : List String :=
  scanTagsGo .idle l

def isQuote (c : Char) : Bool :=
  c = squote || c = dquote

/-- State of the `:is` scanner: progress through the literal marker
`:is="`, then the opening quote, then the captured body (in reverse). -/
inductive IsScanState
  | idle
  | m1
  | m2
  | m3
  | m4
  | m5
  | body (acc : List Char)
deriving DecidableEq, Repr

def isIdleStep (c : Char) : IsScanState :=
  if c = ':' then .m1 else .idle

/-- One step of the `:is` scanner.  On a mismatch the failed region
(which can contain no later `:` before the current character) is
abandoned and the current character is re-examined as a scan head,
matching the regex engine's restart-at-next-position behaviour.
A successful match consumes its closing quote. -/
def isStep (st : IsScanState) (c : Char) : IsScanState × Option String :=
  match st with
  | .idle => (isIdleStep c, none)
  | .m1 => (if c = 'i' then .m2 else isIdleStep c, none)
  | .m2 => (if c = 's' then .m3 else isIdleStep c, none)
  | .m3 => (if c = '=' then .m4 else isIdleStep c, none)
  | .m4 => (if c = dquote then .m5 else isIdleStep c, none)
  | .m5 => (if isQuote c then .body [] else isIdleStep c, none)
  | .body acc =>
      if isQuote c then
        match acc with
        | [] => (isIdleStep c, none)
        | _ => (.idle, some (String.mk acc.reverse))
      else (.body (c :: acc), none)

def scanIsGo (st : IsScanState) : List Char → List String
  | [] => []
  | c :: rest =>
      match isStep st c with
      | (st', some t) => t :: scanIsGo st' rest
      | (st', none) => scanIsGo st' rest

def scanIsProps (l : List Char) : List String :=
  scanIsGo .idle l

/-- `getTemplateTags`: tag-pattern matches followed by `:is`-pattern
matches.  The source collects them in one `Set`; the list below is
membership-equivalent (duplicates are harmless to every consumer). -/
def getTemplateTags (templateContent : String) : List String :=
  scanTags templateContent.data ++ scanIsProps templateContent.data

/-- JS `\w` character class. -/
def isWordChar (c : Char) : Bool :=
  c.isAlphanum || c = '_'

def kebabToPascalAux : List Char → List Char
  | [] => []
  | '-' :: c :: rest =>
      if isWordChar c then c.toUpper :: kebabToPascalAux rest
      else '-' :: kebabToPascalAux (c :: rest)
  | c :: rest => c :: kebabToPascalAux rest

/-- The global replacement of each hyphen-followed-by-word-character pair
by the uppercased character, as in the SFC helper's kebab conversion. -/
def kebabCaseToPascalCase (s : String) : String :=
  String.mk (kebabToPascalAux s.data)

/-- The per-tag lookup of `getUsedImportSources`: the tag exactly as
written first, then its kebab-converted form. -/
def usedSourcesStep (importedComponents : List (String × String))
    (used : List String) (tag : String) : List String :=
  match mapGet importedComponents tag with
  | some src => setAdd used src
  | none =>
      match mapGet importedComponents (kebabCaseToPascalCase tag) with
      | some src => setAdd used src
      | none => used

/-- `getUsedImportSources`: for each template tag, look the tag itself up
in the imported-components map, then its kebab-converted form; a hit on
either form credits that import source. -/
def getUsedImportSources (templateTags : List String)
    (importedComponents : List (String × String)) : List String :=
  templateTags.foldl (usedSourcesStep importedComponents) []

/-! ## Path resolution (`normalizeImportPath` and `isPackageImport`) -/

/-- The configured extension set: either the `"ALL"` sentinel string or an
explicit list. -/
inductive Exts
  | all
  | list (exts : List String)
deriving DecidableEq, Repr

/-- `for (const ext of extensions)` iterates the characters `A`, `L`, `L`
when `extensions` is the sentinel string `"ALL"`. -/
def Exts.iterList : Exts → List String
  | .all => ["A", "L", "L"]
  | .list l => l

/-- The guard `extensions === "ALL" || extensions.length === 0`. -/
def Exts.isAllOrEmpty : Exts → Bool
  | .all => true
  | .list l => l.isEmpty

/-- `isPackageImport`: not relative, not absolute, and matching no
configured alias exactly or as `alias + "/"`. -/
def isPackageImport (imp : String) (aliases : List (String × String)) : Bool :=
  let isAlias := aliases.any
    (fun p => imp = p.1 || strStartsWith imp (p.1 ++ "/"))
  !(strStartsWith imp ".") && !(strStartsWith imp "/") && !isAlias

/-- Alias substitution (first matching alias wins; the alias list is
ordered longest-prefix-first by the caller) or resolution relative to
the containing file's directory. -/
def resolveSpecifier (imp basePath rootDir : String)
    (aliases : List (String × String)) : String :=
  match aliases.find? (fun p => imp = p.1 || strStartsWith imp (p.1 ++ "/")) with
  | some al =>
      pathResolve (pathResolve rootDir al.2)
        (stripLeadingSlash (strDrop imp al.1.length))
  | none => pathResolve (dirname basePath) imp

/-- `normalizeImportPath`, mirroring the source's control flow: the
`ALL`/empty fast path, then the ends-with-extension check, appended
extensions, `index.<ext>` candidates, and the bare-path fallback. -/
def normalizeImportPath (fs : Fs) (imp basePath rootDir : String)
    (aliases : List (String × String)) (extensions : Exts) : Option String :=
  let resolved := resolveSpecifier imp basePath rootDir aliases
  let extList := extensions.iterList
  if extensions.isAllOrEmpty && fs.pathExists resolved then some resolved
  else
    match extList.find? (fun ext => strEndsWith resolved ext && fs.pathExists resolved) with
    | some _ => some resolved
    | none =>
        match extList.findSome?
            (fun ext => if fs.pathExists (resolved ++ ext) then some (resolved ++ ext) else none) with
        | some c => some c
        | none =>
            match extList.findSome?
                (fun ext =>
                  let ip := pathJoin resolved ("index" ++ ext)
                  if fs.pathExists ip then some ip else none) with
            | some c => some c
            | none => if fs.pathExists resolved then some resolved else none

/-! ## The analyzer (`analyzeProject` and the bundle correlator) -/

/-- Content of one enumerated project file, at the granularity the
analyzer consumes: a `.vue` file is split by the external SFC compiler
into a script region and a template region; any other file is parsed
whole as a script. -/
inductive FileData
  | vue (script : Script) (template : String)
  | plain (script : Script)
deriving DecidableEq, Repr

/-- The script region handed to `extractImports` (`contentToParse`). -/
def FileData.scriptOf : FileData → Script
  | .vue s _ => s
  | .plain s => s

/-- The configuration object consumed by the core.  `bundleDir` is the
directory chosen by `config.bundleDir || detectBundleDirectory(config)`. -/
structure Config where
  rootDir : String
  aliasList : List (String × String)
  extensions : Exts
  entry : List String
  bundle : Bool
  bundleDir : String

/-- One analysis run's inputs: the file system, the enumerated files with
their parsed contents, the canonicalisation function (`fs.realpathSync`
with a `path.resolve` fallback), and the source files recovered from the
bundle directory's source maps when scanning succeeds. -/
structure ProjectInput where
  fs : Fs
  files : List (String × FileData)
  realpath : String → String
  bundleScan : List String

/-- Alias entries sorted longest-key-first (stable insertion sort, matching
the stable JS `sort` by descending key length). -/
def insertAliasDesc (p : String × String) :
    List (String × String) → List (String × String)
  | [] => [p]
  | q :: rest =>
      if q.1.length ≤ p.1.length then p :: q :: rest
      else q :: insertAliasDesc p rest

def sortAliases : List (String × String) → List (String × String)
  | [] => []
  | p :: rest => insertAliasDesc p (sortAliases rest)

/-- The specifier-insertion step of the analyzer's per-file loop: bare
package specifiers are dropped, every other specifier joins the set. -/
def addNonPackage (aliases : List (String × String))
    (acc : List String) (imp : String) : List String :=
  if isPackageImport imp aliases then acc else setAdd acc imp

/-- The per-file specifier set `allImports`: for a `.vue` file, the
template-credited sources then the plain extraction of the script region;
for any other file, the plain extraction of the whole content.  Both
channels drop bare package specifiers before insertion. -/
def fileImports (aliases : List (String × String)) : FileData → List String
  | .vue script template =>
      let usedInTemplate :=
        getUsedImportSources (getTemplateTags template) (getImportedComponents script)
      let withTemplate := usedInTemplate.foldl (addNonPackage aliases) []
      (extractImports script).foldl (addNonPackage aliases) withTemplate
  | .plain script =>
      (extractImports script).foldl (addNonPackage aliases) []

/-- Resolved, canonicalised dependency targets of one file. -/
def fileEdges (fs : Fs) (aliases : List (String × String)) (extensions : Exts)
    (rootDir : String) (rp : String → String) (fc : String × FileData) : List String :=
  (fileImports aliases fc.2).filterMap
    (fun imp => (normalizeImportPath fs imp fc.1 rootDir aliases extensions).map rp)

/-- `BundleAnalyzer.analyzeBundleDirectory`: a missing directory throws a
descriptive error; otherwise the scan's recovered source files are
returned. -/
def analyzeBundleDirectory (fs : Fs) (bundleDir : String)
    (scan : List String) : Except String (List String) :=
  if fs.pathExists bundleDir then Except.ok scan
  else Except.error ("Bundle directory not found: " ++ bundleDir)

/-- Result record of `BundleAnalyzer.correlateWithStaticAnalysis`
(the size-impact estimate, unused by every claim, is omitted). -/
structure Correlation where
  bundleUsedFiles : List String
  bundleUnusedFiles : List String
  potentiallyUnusedFiles : List String
deriving DecidableEq, Repr

/-- `correlateWithStaticAnalysis`: bundle sources present in `allFiles`
are bundle-used; a file is bundle-unused only when it is neither
bundle-used nor statically used. -/
def correlateWithStaticAnalysis (sourceFiles allFiles usedFiles : List String) :
    Correlation :=
  let bundleUsedFiles := sourceFiles.filter (fun f => decide (f ∈ allFiles))
  let bundleUnusedFiles :=
    allFiles.filter
      (fun f => !decide (f ∈ bundleUsedFiles) && !decide (f ∈ usedFiles))
  ⟨bundleUsedFiles, bundleUnusedFiles, bundleUnusedFiles⟩

/-- The result object of `analyzeProject`.  `graphEdges` lists the
dependency graph's edges (source file, target file), which carries the
same edge-membership information as the adjacency map the source
serialises. -/
structure AnalyzeResult where
  allFiles : List String
  usedFiles : List String
  unusedFiles : List String
  graphEdges : List (String × String)
  bundleAnalysis : Option (List String)
  bundleCorrelation : Option Correlation

def sortedAliases (cfg : Config) : List (String × String) :=
  sortAliases cfg.aliasList

/-- The bundle-analysis phase of `analyzeProject`: only runs when
requested, and a thrown error is caught, warned about, and replaced by
`null`. -/
def bundleAnalysisOf (cfg : Config) (inp : ProjectInput) : Option (List String) :=
  if cfg.bundle then
    match analyzeBundleDirectory inp.fs cfg.bundleDir inp.bundleScan with
    | Except.ok s => some s
    | Except.error _ => none
  else none

def allFilesOf (inp : ProjectInput) : List String :=
  inp.files.map Prod.fst

/-- `allFilesSet`: the enumerated files, canonicalised. -/
def allFilesSetOf (inp : ProjectInput) : List String :=
  (allFilesOf inp).map inp.realpath

/-- The up-front seeding of `usedFiles` from the configured entry points:
`path.resolve(rootDir, f)` then canonicalisation. -/
def entryUsedOf (cfg : Config) (inp : ProjectInput) : List String :=
  cfg.entry.map (fun f => inp.realpath (pathResolve cfg.rootDir f))

/-- All dependency edges over all files. -/
def graphEdgesOf (cfg : Config) (inp : ProjectInput) : List (String × String) :=
  inp.files.flatMap
    (fun fc =>
      (fileEdges inp.fs (sortedAliases cfg) cfg.extensions cfg.rootDir inp.realpath fc).map
        (fun t => (inp.realpath fc.1, t)))

/-- The final `usedFiles` set: entry seeds plus every resolved edge
target. -/
def usedFilesOf (cfg : Config) (inp : ProjectInput) : List String :=
  entryUsedOf cfg inp ++ (graphEdgesOf cfg inp).map Prod.snd

/-- `unusedFiles` before bundle correlation. -/
def staticUnusedOf (cfg : Config) (inp : ProjectInput) : List String :=
  (allFilesSetOf inp).filter (fun f => !decide (f ∈ usedFilesOf cfg inp))

/-- `analyzeProject`: assemble the result, replacing `unusedFiles` by the
bundle-aware list when bundle analysis succeeded and was requested. -/
def analyzeProject (cfg : Config) (inp : ProjectInput) : AnalyzeResult :=
  match bundleAnalysisOf cfg inp with
  | none =>
      ⟨allFilesOf inp, usedFilesOf cfg inp, staticUnusedOf cfg inp,
        graphEdgesOf cfg inp, none, none⟩
  | some sources =>
      let corr :=
        correlateWithStaticAnalysis sources (allFilesOf inp) (usedFilesOf cfg inp)
      let unused := if cfg.bundle then corr.bundleUnusedFiles else staticUnusedOf cfg inp
      ⟨allFilesOf inp, usedFilesOf cfg inp, unused,
        graphEdgesOf cfg inp, some sources, some corr⟩

/-! ## The resolution order as the specification words it (claim C6) -/

/-- The claim's resolution step list, written as stated: step 2 returns the
substituted path when it already ends with a configured extension and
exists; step 3 appends each extension in order; step 4 tries index files;
step 5 returns the bare path only when it exists as a file; step 6 yields
`none`. -/
def claimResolveSteps (fs : Fs) (imp basePath rootDir : String)
    (aliases : List (String × String)) (exts : List String) : Option String :=
  let resolved := resolveSpecifier imp basePath rootDir aliases
  if (exts.any fun ext => strEndsWith resolved ext) && fs.pathExists resolved then
    some resolved
  else
    match exts.findSome?
        (fun ext => if fs.pathExists (resolved ++ ext) then some (resolved ++ ext) else none) with
    | some c => some c
    | none =>
        match exts.findSome?
            (fun ext =>
              let ip := pathJoin resolved ("index" ++ ext)
              if fs.pathExists ip then some ip else none) with
        | some c => some c
        | none => if decide (resolved ∈ fs.files) then some resolved else none

/-- The amended step list: identical to `claimResolveSteps` except that
step 5 returns the bare substituted path whenever it exists on disk,
whether as a file or as a directory (the source's existence probe does
not distinguish the two). -/
def amendedResolveSteps (fs : Fs) (imp basePath rootDir : String)
    (aliases : List (String × String)) (exts : List String) : Option String :=
  let resolved := resolveSpecifier imp basePath rootDir aliases
  if (exts.any fun ext => strEndsWith resolved ext) && fs.pathExists resolved then
    some resolved
  else
    match exts.findSome?
        (fun ext => if fs.pathExists (resolved ++ ext) then some (resolved ++ ext) else none) with
    | some c => some c
    | none =>
        match exts.findSome?
            (fun ext =>
              let ip := pathJoin resolved ("index" ++ ext)
              if fs.pathExists ip then some ip else none) with
        | some c => some c
        | none => if fs.pathExists resolved then some resolved else none

/-! ## Helper lemmas -/

theorem mem_setAdd_iff {l : List String} {s a : String} :
    a ∈ setAdd l s ↔ a ∈ l ∨ a = s := by
  unfold setAdd
  by_cases h : s ∈ l
  · rw [if_pos h]
    constructor
    · exact Or.inl
    · rintro (ha | rfl)
      · exact ha
      · exact h
  · rw [if_neg h]
    simp

theorem mem_foldl_addNonPackage {aliases : List (String × String)} :
    ∀ (l init : List String) (a : String),
      a ∈ l.foldl (addNonPackage aliases) init ↔
        a ∈ init ∨ (a ∈ l ∧ isPackageImport a aliases = false) := by
  intro l
  induction l with
  | nil => intro init a; simp
  | cons x xs ih =>
      intro init a
      rw [List.foldl_cons, ih]
      unfold addNonPackage
      cases hx : isPackageImport x aliases with
      | true =>
          rw [if_pos rfl]
          constructor
          · rintro (h | ⟨h1, h2⟩)
            · exact Or.inl h
            · exact Or.inr ⟨List.mem_cons_of_mem _ h1, h2⟩
          · rintro (h | ⟨h1, h2⟩)
            · exact Or.inl h
            · rcases List.mem_cons.mp h1 with rfl | h1
              · rw [hx] at h2; cases h2
              · exact Or.inr ⟨h1, h2⟩
      | false =>
          rw [if_neg (by simp [hx])]
          constructor
          · rintro (h | ⟨h1, h2⟩)
            · rcases mem_setAdd_iff.mp h with h | rfl
              · exact Or.inl h
              · exact Or.inr ⟨List.mem_cons_self _ _, hx⟩
            · exact Or.inr ⟨List.mem_cons_of_mem _ h1, h2⟩
          · rintro (h | ⟨h1, h2⟩)
            · exact Or.inl (mem_setAdd_iff.mpr (Or.inl h))
            · rcases List.mem_cons.mp h1 with rfl | h1
              · exact Or.inl (mem_setAdd_iff.mpr (Or.inr rfl))
              · exact Or.inr ⟨h1, h2⟩

theorem subset_usedSourcesStep {comps : List (String × String)}
    {used : List String} {tag a : String} (h : a ∈ used) :
    a ∈ usedSourcesStep comps used tag := by
  unfold usedSourcesStep
  cases mapGet comps tag with
  | some src => exact mem_setAdd_iff.mpr (Or.inl h)
  | none =>
      cases mapGet comps (kebabCaseToPascalCase tag) with
      | some src => exact mem_setAdd_iff.mpr (Or.inl h)
      | none => exact h

theorem subset_foldl_usedSourcesStep {comps : List (String × String)} :
    ∀ (l : List String) (init : List String) (a : String),
      a ∈ init → a ∈ l.foldl (usedSourcesStep comps) init := by
  intro l
  induction l with
  | nil => intro init a h; exact h
  | cons x xs ih =>
      intro init a h
      rw [List.foldl_cons]
      exact ih _ _ (subset_usedSourcesStep h)

theorem mem_getUsedImportSources_of_tag {comps : List (String × String)}
    {tags : List String} {tag src : String}
    (ht : tag ∈ tags) (hget : mapGet comps tag = some src) :
    src ∈ getUsedImportSources tags comps := by
  unfold getUsedImportSources
  generalize hinit : ([] : List String) = init
  clear hinit
  induction tags generalizing init with
  | nil => cases ht
  | cons x xs ih =>
      rw [List.foldl_cons]
      rcases List.mem_cons.mp ht with rfl | hx
      · apply subset_foldl_usedSourcesStep
        unfold usedSourcesStep
        rw [hget]
        exact mem_setAdd_iff.mpr (Or.inr rfl)
      · exact ih hx _

theorem mem_getUsedImportSources_of_converted {comps : List (String × String)}
    {tags : List String} {tag src : String}
    (ht : tag ∈ tags) (hmiss : mapGet comps tag = none)
    (hget : mapGet comps (kebabCaseToPascalCase tag) = some src) :
    src ∈ getUsedImportSources tags comps := by
  unfold getUsedImportSources
  generalize hinit : ([] : List String) = init
  clear hinit
  induction tags generalizing init with
  | nil => cases ht
  | cons x xs ih =>
      rw [List.foldl_cons]
      rcases List.mem_cons.mp ht with rfl | hx
      · apply subset_foldl_usedSourcesStep
        unfold usedSourcesStep
        rw [hmiss, hget]
        exact mem_setAdd_iff.mpr (Or.inr rfl)
      · exact ih hx _

theorem mem_fileImports_of_extract {aliases : List (String × String)}
    {d : FileData} {imp : String}
    (h : imp ∈ extractImports d.scriptOf)
    (hnp : isPackageImport imp aliases = false) :
    imp ∈ fileImports aliases d := by
  cases d with
  | vue s t =>
      unfold fileImports
      exact (mem_foldl_addNonPackage _ _ _).mpr (Or.inr ⟨h, hnp⟩)
  | plain s =>
      unfold fileImports
      exact (mem_foldl_addNonPackage _ _ _).mpr (Or.inr ⟨h, hnp⟩)

theorem mem_fileImports_of_template {aliases : List (String × String)}
    {s : Script} {t : String} {imp : String}
    (h : imp ∈ getUsedImportSources (getTemplateTags t) (getImportedComponents s))
    (hnp : isPackageImport imp aliases = false) :
    imp ∈ fileImports aliases (.vue s t) := by
  unfold fileImports
  exact (mem_foldl_addNonPackage _ _ _).mpr
    (Or.inl ((mem_foldl_addNonPackage _ _ _).mpr (Or.inr ⟨h, hnp⟩)))

theorem not_package_of_mem_fileImports {aliases : List (String × String)}
    {d : FileData} {imp : String} (h : imp ∈ fileImports aliases d) :
    isPackageImport imp aliases = false := by
  cases d with
  | vue s t =>
      unfold fileImports at h
      rcases (mem_foldl_addNonPackage _ _ _).mp h with h | ⟨_, h2⟩
      · rcases (mem_foldl_addNonPackage _ _ _).mp h with h | ⟨_, h2⟩
        · cases h
        · exact h2
      · exact h2
  | plain s =>
      unfold fileImports at h
      rcases (mem_foldl_addNonPackage _ _ _).mp h with h | ⟨_, h2⟩
      · cases h
      · exact h2

theorem strMk_data (s : String) : String.mk s.data = s := rfl

theorem mem_scanTagsGo_capturing :
    ∀ (rest : List Char) (acc : List Char),
      String.mk (acc.reverse ++ rest.takeWhile isTagChar) ∈
        scanTagsGo (.capturing acc) rest := by
  intro rest
  induction rest with
  | nil =>
      intro acc
      simp [scanTagsGo, List.takeWhile]
  | cons c r ih =>
      intro acc
      cases hc : isTagChar c with
      | true =>
          have hstep : tagStep (.capturing acc) c = (.capturing (c :: acc), none) := by
            simp [tagStep, hc]
          have htake : (c :: r).takeWhile isTagChar = c :: r.takeWhile isTagChar := by
            simp [List.takeWhile, hc]
          rw [htake]
          show String.mk (acc.reverse ++ c :: r.takeWhile isTagChar) ∈
            scanTagsGo (TagScanState.capturing acc) (c :: r)
          simp only [scanTagsGo, hstep]
          have := ih (c :: acc)
          simpa [List.reverse_cons, List.append_assoc] using this
      | false =>
          have htake : (c :: r).takeWhile isTagChar = [] := by
            simp [List.takeWhile, hc]
          rw [htake]
          show String.mk (acc.reverse ++ []) ∈
            scanTagsGo (TagScanState.capturing acc) (c :: r)
          have hstep : tagStep (.capturing acc) c =
              (if c = '<' then .sawLt else .idle, some (String.mk acc.reverse)) := by
            simp [tagStep, hc]
          simp only [scanTagsGo, hstep, List.append_nil]
          exact List.mem_cons_self _ _

theorem mem_scanTagsGo_lt {c : Char} (hupper : c.isUpper = true)
    (rest : List Char) :
    ∀ (st : TagScanState),
      String.mk (c :: rest.takeWhile isTagChar) ∈ scanTagsGo st ('<' :: c :: rest) := by
  have hnotTag : isTagChar '<' = false := by decide
  have hnotUp : ('<').isUpper = false := by decide
  have key : String.mk (c :: rest.takeWhile isTagChar) ∈ scanTagsGo .sawLt (c :: rest) := by
    have hstep : tagStep .sawLt c = (.capturing [c], none) := by
      simp [tagStep, hupper]
    simp only [scanTagsGo, hstep]
    have := mem_scanTagsGo_capturing rest [c]
    simpa using this
  intro st
  cases st with
  | idle =>
      have hstep : tagStep .idle '<' = (.sawLt, none) := by simp [tagStep]
      simp only [scanTagsGo, hstep]
      exact key
  | sawLt =>
      have hstep : tagStep .sawLt '<' = (.sawLt, none) := by
        simp [tagStep, hnotUp]
      simp only [scanTagsGo, hstep]
      exact key
  | capturing acc =>
      have hstep : tagStep (.capturing acc) '<' =
          (.sawLt, some (String.mk acc.reverse)) := by
        simp [tagStep, hnotTag]
      simp only [scanTagsGo, hstep]
      exact List.mem_cons_of_mem _ key

theorem mem_scanTagsGo_of_split {c : Char} (hupper : c.isUpper = true) :
    ∀ (pre : List Char) (st : TagScanState) (rest : List Char),
      String.mk (c :: rest.takeWhile isTagChar) ∈
        scanTagsGo st (pre ++ '<' :: c :: rest) := by
  intro pre
  induction pre with
  | nil => intro st rest; exact mem_scanTagsGo_lt hupper rest st
  | cons x pre' ih =>
      intro st rest
      rcases hstep : tagStep st x with ⟨st', opt⟩
      cases opt with
      | none =>
          show String.mk (c :: rest.takeWhile isTagChar) ∈
            scanTagsGo st (x :: (pre' ++ '<' :: c :: rest))
          simp only [scanTagsGo, hstep]
          exact ih st' rest
      | some t =>
          show String.mk (c :: rest.takeWhile isTagChar) ∈
            scanTagsGo st (x :: (pre' ++ '<' :: c :: rest))
          simp only [scanTagsGo, hstep]
          exact List.mem_cons_of_mem _ (ih st' rest)

theorem mem_scanTags_of_split {t : String} {pre rest : List Char} {c : Char}
    (hsplit : t.data = pre ++ '<' :: c :: rest) (hupper : c.isUpper = true) :
    String.mk (c :: rest.takeWhile isTagChar) ∈ scanTags t.data := by
  rw [hsplit]
  exact mem_scanTagsGo_of_split hupper pre .idle rest

theorem mem_getTemplateTags_of_scanTags {t : String} {name : String}
    (h : name ∈ scanTags t.data) : name ∈ getTemplateTags t :=
  List.mem_append_left _ h

theorem mem_getTemplateTags_of_scanIs {t : String} {name : String}
    (h : name ∈ scanIsProps t.data) : name ∈ getTemplateTags t :=
  List.mem_append_right _ h

theorem mem_scanIsGo_body :
    ∀ (body acc : List Char) (q : Char) (tail : List Char),
      (∀ c ∈ body, isQuote c = false) → isQuote q = true →
      acc.reverse ++ body ≠ [] →
      String.mk (acc.reverse ++ body) ∈ scanIsGo (.body acc) (body ++ q :: tail) := by
  intro body
  induction body with
  | nil =>
      intro acc q tail _ hq hne
      cases acc with
      | nil => simp at hne
      | cons a as =>
          have hstep : isStep (.body (a :: as)) q =
              (.idle, some (String.mk (a :: as).reverse)) := by
            simp [isStep, hq]
          show String.mk ((a :: as).reverse ++ []) ∈
            scanIsGo (IsScanState.body (a :: as)) (q :: tail)
          simp only [scanIsGo, hstep, List.append_nil]
          exact List.mem_cons_self _ _
  | cons c body' ih =>
      intro acc q tail hbody hq _
      have hc : isQuote c = false := hbody c (List.mem_cons_self _ _)
      have hstep : isStep (.body acc) c = (.body (c :: acc), none) := by
        simp [isStep, hc]
      show String.mk (acc.reverse ++ c :: body') ∈
        scanIsGo (IsScanState.body acc) (c :: (body' ++ q :: tail))
      simp only [scanIsGo, hstep]
      have := ih (c :: acc) q tail
        (fun d hd => hbody d (List.mem_cons_of_mem _ hd)) hq
        (by simp)
      simpa [List.reverse_cons, List.append_assoc] using this

theorem mem_fileEdges_of {fs : Fs} {aliases : List (String × String)} {exts : Exts}
    {rootDir : String} {rp : String → String} {fc : String × FileData}
    {imp target : String}
    (h : imp ∈ fileImports aliases fc.2)
    (hres : normalizeImportPath fs imp fc.1 rootDir aliases exts = some target) :
    rp target ∈ fileEdges fs aliases exts rootDir rp fc := by
  unfold fileEdges
  exact List.mem_filterMap.mpr ⟨imp, h, by rw [hres]; rfl⟩

theorem mem_graphEdgesOf_of {cfg : Config} {inp : ProjectInput}
    {fc : String × FileData} {t : String}
    (hfc : fc ∈ inp.files)
    (ht : t ∈ fileEdges inp.fs (sortedAliases cfg) cfg.extensions cfg.rootDir inp.realpath fc) :
    (inp.realpath fc.1, t) ∈ graphEdgesOf cfg inp := by
  unfold graphEdgesOf
  exact List.mem_flatMap.mpr ⟨fc, hfc, List.mem_map.mpr ⟨t, ht, rfl⟩⟩

theorem mem_usedFilesOf_of_edge {cfg : Config} {inp : ProjectInput}
    {e : String × String} (he : e ∈ graphEdgesOf cfg inp) :
    e.2 ∈ usedFilesOf cfg inp := by
  unfold usedFilesOf
  exact List.mem_append_right _ (List.mem_map.mpr ⟨e, he, rfl⟩)

theorem mem_usedFilesOf_of_entry {cfg : Config} {inp : ProjectInput}
    {e : String} (he : e ∈ cfg.entry) :
    inp.realpath (pathResolve cfg.rootDir e) ∈ usedFilesOf cfg inp := by
  unfold usedFilesOf entryUsedOf
  exact List.mem_append_left _ (List.mem_map.mpr ⟨e, he, rfl⟩)

theorem graphEdgesOf_elim {cfg : Config} {inp : ProjectInput}
    {e : String × String} (he : e ∈ graphEdgesOf cfg inp) :
    ∃ fc ∈ inp.files, ∃ imp ∈ fileImports (sortedAliases cfg) fc.2, ∃ target,
      normalizeImportPath inp.fs imp fc.1 cfg.rootDir (sortedAliases cfg)
        cfg.extensions = some target ∧
      e = (inp.realpath fc.1, inp.realpath target) := by
  unfold graphEdgesOf at he
  rcases List.mem_flatMap.mp he with ⟨fc, hfc, hmem⟩
  rcases List.mem_map.mp hmem with ⟨t, ht, rfl⟩
  unfold fileEdges at ht
  rcases List.mem_filterMap.mp ht with ⟨imp, himp, hres⟩
  rcases Option.map_eq_some'.mp hres with ⟨target, hres', rfl⟩
  exact ⟨fc, hfc, imp, himp, target, hres', rfl⟩

theorem usedFilesOf_elim {cfg : Config} {inp : ProjectInput}
    {u : String} (hu : u ∈ usedFilesOf cfg inp) :
    u ∈ entryUsedOf cfg inp ∨ ∃ e ∈ graphEdgesOf cfg inp, u = e.2 := by
  unfold usedFilesOf at hu
  rcases List.mem_append.mp hu with h | h
  · exact Or.inl h
  · rcases List.mem_map.mp h with ⟨e, he, rfl⟩
    exact Or.inr ⟨e, he, rfl⟩

theorem analyzeProject_usedFiles (cfg : Config) (inp : ProjectInput) :
    (analyzeProject cfg inp).usedFiles = usedFilesOf cfg inp := by
  unfold analyzeProject
  cases bundleAnalysisOf cfg inp <;> rfl

theorem analyzeProject_graphEdges (cfg : Config) (inp : ProjectInput) :
    (analyzeProject cfg inp).graphEdges = graphEdgesOf cfg inp := by
  unfold analyzeProject
  cases bundleAnalysisOf cfg inp <;> rfl

theorem analyzeProject_allFiles (cfg : Config) (inp : ProjectInput) :
    (analyzeProject cfg inp).allFiles = allFilesOf inp := by
  unfold analyzeProject
  cases bundleAnalysisOf cfg inp <;> rfl

theorem bundle_true_of_bundleAnalysisOf_some {cfg : Config} {inp : ProjectInput}
    {s : List String} (h : bundleAnalysisOf cfg inp = some s) :
    cfg.bundle = true := by
  unfold bundleAnalysisOf at h
  cases hb : cfg.bundle with
  | true => rfl
  | false => rw [hb] at h; simp at h

/-- Further projection lemmas for the two bundle branches. -/
theorem analyzeProject_bundleAnalysis (cfg : Config) (inp : ProjectInput) :
    (analyzeProject cfg inp).bundleAnalysis = bundleAnalysisOf cfg inp := by
  unfold analyzeProject
  cases bundleAnalysisOf cfg inp <;> rfl

theorem analyzeProject_unusedFiles_none {cfg : Config} {inp : ProjectInput}
    (hba : bundleAnalysisOf cfg inp = none) :
    (analyzeProject cfg inp).unusedFiles = staticUnusedOf cfg inp := by
  unfold analyzeProject
  rw [hba]

theorem analyzeProject_unusedFiles_some {cfg : Config} {inp : ProjectInput}
    {sources : List String} (hba : bundleAnalysisOf cfg inp = some sources) :
    (analyzeProject cfg inp).unusedFiles =
      (correlateWithStaticAnalysis sources (allFilesOf inp)
        (usedFilesOf cfg inp)).bundleUnusedFiles := by
  have hbT := bundle_true_of_bundleAnalysisOf_some hba
  unfold analyzeProject
  rw [hba]
  simp [hbT]

theorem analyzeProject_bundleCorrelation_none {cfg : Config} {inp : ProjectInput}
    (hba : bundleAnalysisOf cfg inp = none) :
    (analyzeProject cfg inp).bundleCorrelation = none := by
  unfold analyzeProject
  rw [hba]

theorem analyzeProject_bundleCorrelation_some {cfg : Config} {inp : ProjectInput}
    {sources : List String} (hba : bundleAnalysisOf cfg inp = some sources) :
    (analyzeProject cfg inp).bundleCorrelation =
      some (correlateWithStaticAnalysis sources (allFilesOf inp)
        (usedFilesOf cfg inp)) := by
  unfold analyzeProject
  rw [hba]

/-! ## Concrete project fixtures used by witnesses and counterexamples -/

/-- Script of `App.vue`: one default import, never referenced elsewhere. -/
def scriptApp : Script :=
  ⟨true, [.importDecl "./foo-bar.vue" [.defaultBinding "FooBar"]]⟩

def tplApp : String := "<FooBar/>"

/-- Script of `src/main.js`: a relative import and a bare package import. -/
def scriptMain : Script :=
  ⟨true,
    [.importDecl "../App.vue" [.defaultBinding "App"],
     .importDecl "lodash" [.defaultBinding "lodash"]]⟩

def fsEx : Fs :=
  ⟨["/proj/App.vue", "/proj/foo-bar.vue", "/proj/src/main.js"],
   ["/proj", "/proj/src"]⟩

def cfgEx : Config :=
  ⟨"/proj", [], .list [".vue", ".js"], ["src/main.js"], false, "/proj/dist"⟩

def inpEx : ProjectInput :=
  ⟨fsEx,
   [("/proj/App.vue", .vue scriptApp tplApp),
    ("/proj/foo-bar.vue", .vue ⟨true, []⟩ ""),
    ("/proj/src/main.js", .plain scriptMain)],
   id, []⟩

/-! ## Claim C1 -/

/-- C1: for a `.vue` file whose markup contains a PascalCase tag and whose
script has a default-import binding of that name — even if the script never
references the binding outside the import statement — the dependency graph
of `analyzeProject` contains an edge from the component file to the
specifier's resolved target, and that target joins `usedFiles`. -/
theorem C1_pascal_tag_edge (cfg : Config) (inp : ProjectInput)
    (p : String) (script : Script) (template : String)
    (pre rest : List Char) (c : Char) (name spec target : String)
    (hfile : (p, FileData.vue script template) ∈ inp.files)
    (hsplit : template.data = pre ++ '<' :: c :: rest)
    (hupper : c.isUpper = true)
    (hname : String.mk (c :: rest.takeWhile isTagChar) = name)
    (hbind : mapGet (getImportedComponents script) name = some spec)
    (hnp : isPackageImport spec (sortedAliases cfg) = false)
    (hres : normalizeImportPath inp.fs spec p cfg.rootDir (sortedAliases cfg)
      cfg.extensions = some target) :
    (inp.realpath p, inp.realpath target) ∈ (analyzeProject cfg inp).graphEdges ∧
      inp.realpath target ∈ (analyzeProject cfg inp).usedFiles := by
  have htag : name ∈ scanTags template.data := by
    rw [← hname]
    exact mem_scanTags_of_split hsplit hupper
  have hsrc := mem_getUsedImportSources_of_tag
    (mem_getTemplateTags_of_scanTags htag) hbind
  have hfi := mem_fileImports_of_template hsrc hnp
  have hedge := @mem_fileEdges_of inp.fs (sortedAliases cfg) cfg.extensions
    cfg.rootDir inp.realpath (p, FileData.vue script template) spec target hfi hres
  have hg := mem_graphEdgesOf_of hfile hedge
  refine ⟨?_, ?_⟩
  · rw [analyzeProject_graphEdges]
    exact hg
  · rw [analyzeProject_usedFiles]
    exact mem_usedFilesOf_of_edge hg

theorem C1_witness :
    ("/proj/App.vue", "/proj/foo-bar.vue") ∈ (analyzeProject cfgEx inpEx).graphEdges ∧
      "/proj/foo-bar.vue" ∈ (analyzeProject cfgEx inpEx).usedFiles :=
  C1_pascal_tag_edge cfgEx inpEx "/proj/App.vue" scriptApp tplApp
    [] ("ooBar/>".data) 'F' "FooBar" "./foo-bar.vue" "/proj/foo-bar.vue"
    (by decide) rfl (by decide) (by decide) (by decide) (by decide) (by decide)

/-! ## Claim C2 -/

/-- C2 (counterexample): a kebab-case tag `<foo-bar/>` is never extracted —
the tag pattern requires an initial uppercase letter — so the PascalCase
binding `FooBar` is not credited; moreover the kebab conversion maps
`foo-bar` to `fooBar`, not `FooBar`. -/
theorem C2_counterexample :
    getTemplateTags "<foo-bar/>" = [] ∧
    "./foo-bar.vue" ∉ getUsedImportSources (getTemplateTags "<foo-bar/>")
      [("FooBar", "./foo-bar.vue")] ∧
    kebabCaseToPascalCase "foo-bar" = "fooBar" := by decide

/-- C2 (amended): only tags beginning with an uppercase letter are
extracted, and the kebab conversion uppercases just the letters that
follow hyphens; so a hyphenated tag with an uppercase first letter
(e.g. `<Foo-bar/>`) is extracted and, when the script has no binding under
the literal tag name but binds its converted form (`Foo-bar` → `FooBar`),
that binding's import specifier is credited by `getUsedImportSources`. -/
theorem C2_amended_tag_converted (template : String)
    (comps : List (String × String))
    (pre rest : List Char) (c : Char) (name spec : String)
    (hsplit : template.data = pre ++ '<' :: c :: rest)
    (hupper : c.isUpper = true)
    (hname : String.mk (c :: rest.takeWhile isTagChar) = name)
    (hmiss : mapGet comps name = none)
    (hconv : mapGet comps (kebabCaseToPascalCase name) = some spec) :
    spec ∈ getUsedImportSources (getTemplateTags template) comps := by
  have htag : name ∈ scanTags template.data := by
    rw [← hname]
    exact mem_scanTags_of_split hsplit hupper
  exact mem_getUsedImportSources_of_converted
    (mem_getTemplateTags_of_scanTags htag) hmiss hconv

theorem C2_witness :
    "./foo-bar.vue" ∈ getUsedImportSources (getTemplateTags "<Foo-bar/>")
      [("FooBar", "./foo-bar.vue")] :=
  C2_amended_tag_converted "<Foo-bar/>" [("FooBar", "./foo-bar.vue")]
    [] ("oo-bar/>".data) 'F' "Foo-bar" "./foo-bar.vue"
    rfl (by decide) (by decide) (by decide) (by decide)

/-! ## Claim C3 -/

def cfgC3 : Config := ⟨"/proj", [], .list [".js"], [], true, "/proj/dist"⟩

def inpC3 : ProjectInput :=
  ⟨⟨["/proj/a.js"], ["/proj"]⟩, [("/proj/a.js", .plain ⟨true, []⟩)], id, []⟩

/-- C3 (counterexample): with bundle correlation requested and the bundle
directory missing, the run does not abort — `analyzeProject` returns a
complete result object whose `bundleAnalysis` is `null` and whose unused
list is the static one. -/
theorem C3_counterexample :
    cfgC3.bundle = true ∧
    inpC3.fs.pathExists cfgC3.bundleDir = false ∧
    (analyzeProject cfgC3 inpC3).bundleAnalysis = none ∧
    (analyzeProject cfgC3 inpC3).allFiles = ["/proj/a.js"] ∧
    (analyzeProject cfgC3 inpC3).unusedFiles = ["/proj/a.js"] := by
  decide

/-- C3 (amended): a missing bundle directory makes
`analyzeBundleDirectory` fail with the descriptive message, but
`analyzeProject` catches that failure, keeps `bundleAnalysis = null`
(and no correlation), and completes the run with the static-only
unused list. -/
theorem C3_amended_catch_degrades (cfg : Config) (inp : ProjectInput)
    (hb : cfg.bundle = true)
    (hmiss : inp.fs.pathExists cfg.bundleDir = false) :
    analyzeBundleDirectory inp.fs cfg.bundleDir inp.bundleScan =
      Except.error ("Bundle directory not found: " ++ cfg.bundleDir) ∧
    (analyzeProject cfg inp).bundleAnalysis = none ∧
    (analyzeProject cfg inp).bundleCorrelation = none ∧
    (analyzeProject cfg inp).unusedFiles = staticUnusedOf cfg inp := by
  have herr : analyzeBundleDirectory inp.fs cfg.bundleDir inp.bundleScan =
      Except.error ("Bundle directory not found: " ++ cfg.bundleDir) := by
    simp [analyzeBundleDirectory, hmiss]
  have hba : bundleAnalysisOf cfg inp = none := by
    simp [bundleAnalysisOf, hb, herr]
  exact ⟨herr, by rw [analyzeProject_bundleAnalysis, hba],
    analyzeProject_bundleCorrelation_none hba,
    analyzeProject_unusedFiles_none hba⟩

theorem C3_witness :
    analyzeBundleDirectory inpC3.fs cfgC3.bundleDir inpC3.bundleScan =
      Except.error ("Bundle directory not found: " ++ cfgC3.bundleDir) ∧
    (analyzeProject cfgC3 inpC3).bundleAnalysis = none ∧
    (analyzeProject cfgC3 inpC3).bundleCorrelation = none ∧
    (analyzeProject cfgC3 inpC3).unusedFiles = staticUnusedOf cfgC3 inpC3 :=
  C3_amended_catch_degrades cfgC3 inpC3 (by decide) (by decide)

/-! ## Claims C4 and C5 -/

/-- Membership in the bundle-aware unused list produced by the
correlator. -/
theorem mem_bundleUnused_iff (sources allF used : List String) (g : String) :
    g ∈ (correlateWithStaticAnalysis sources allF used).bundleUnusedFiles ↔
      g ∈ allF ∧ g ∉ (sources.filter fun x => decide (x ∈ allF)) ∧ g ∉ used := by
  unfold correlateWithStaticAnalysis
  simp [List.mem_filter, and_assoc]
  tauto

def cfgB : Config := ⟨"/proj", [], .list [".vue"], [], true, "/proj/dist"⟩

def inpB : ProjectInput :=
  ⟨⟨["/proj/extra.vue", "/proj/dead.vue"], ["/proj", "/proj/dist"]⟩,
   [("/proj/extra.vue", .vue ⟨true, []⟩ ""),
    ("/proj/dead.vue", .vue ⟨true, []⟩ "")],
   id, ["/proj/extra.vue"]⟩

/-- C4 (counterexample): in bundle mode, a file found in the bundle's
source maps but not statically used is removed from `unusedFiles` without
being added to `usedFiles`, so it appears in neither list. -/
theorem C4_counterexample :
    "/proj/extra.vue" ∈ (analyzeProject cfgB inpB).allFiles ∧
    "/proj/extra.vue" ∉ (analyzeProject cfgB inpB).usedFiles ∧
    "/proj/extra.vue" ∉ (analyzeProject cfgB inpB).unusedFiles := by
  decide

/-- C4 (amended): every file of `allFiles` is in at most one of
`usedFiles`/`unusedFiles`; in static-only mode (no bundle analysis) it is
in exactly one of them (when canonicalisation fixes the file); and a file
in neither list is exactly one rescued by bundle evidence — present in the
successful bundle analysis's source set with bundle mode on. -/
theorem C4_amended_partition (cfg : Config) (inp : ProjectInput) (f : String)
    (hf : f ∈ (analyzeProject cfg inp).allFiles)
    (hrp : inp.realpath f = f) :
    ¬ (f ∈ (analyzeProject cfg inp).usedFiles ∧
        f ∈ (analyzeProject cfg inp).unusedFiles) ∧
    ((analyzeProject cfg inp).bundleAnalysis = none →
      f ∈ (analyzeProject cfg inp).usedFiles ∨
        f ∈ (analyzeProject cfg inp).unusedFiles) ∧
    (f ∉ (analyzeProject cfg inp).usedFiles →
      f ∉ (analyzeProject cfg inp).unusedFiles →
      ∃ sources, (analyzeProject cfg inp).bundleAnalysis = some sources ∧
        f ∈ sources ∧ cfg.bundle = true) := by
  rw [analyzeProject_allFiles] at hf
  rw [analyzeProject_usedFiles, analyzeProject_bundleAnalysis]
  cases hba : bundleAnalysisOf cfg inp with
  | none =>
      rw [analyzeProject_unusedFiles_none hba]
      have hiff : ∀ g, g ∈ staticUnusedOf cfg inp ↔
          g ∈ allFilesSetOf inp ∧ g ∉ usedFilesOf cfg inp := by
        intro g
        unfold staticUnusedOf
        simp [List.mem_filter]
      have hset : f ∈ allFilesSetOf inp := by
        unfold allFilesSetOf
        exact List.mem_map.mpr ⟨f, hf, hrp⟩
      refine ⟨?_, ?_, ?_⟩
      · rintro ⟨hu, hun⟩
        exact ((hiff f).mp hun).2 hu
      · intro _
        by_cases hu : f ∈ usedFilesOf cfg inp
        · exact Or.inl hu
        · exact Or.inr ((hiff f).mpr ⟨hset, hu⟩)
      · intro hnu hnun
        exact absurd ((hiff f).mpr ⟨hset, hnu⟩) hnun
  | some sources =>
      rw [analyzeProject_unusedFiles_some hba]
      have hbT := bundle_true_of_bundleAnalysisOf_some hba
      refine ⟨?_, ?_, ?_⟩
      · rintro ⟨hu, hun⟩
        exact ((mem_bundleUnused_iff _ _ _ f).mp hun).2.2 hu
      · intro h
        cases h
      · intro hnu hnun
        refine ⟨sources, rfl, ?_, hbT⟩
        by_contra hns
        exact hnun ((mem_bundleUnused_iff _ _ _ f).mpr
          ⟨hf, fun hmem => hns (List.mem_filter.mp hmem).1, hnu⟩)

theorem C4_witness :
    ¬ ("/proj/App.vue" ∈ (analyzeProject cfgEx inpEx).usedFiles ∧
        "/proj/App.vue" ∈ (analyzeProject cfgEx inpEx).unusedFiles) ∧
    ((analyzeProject cfgEx inpEx).bundleAnalysis = none →
      "/proj/App.vue" ∈ (analyzeProject cfgEx inpEx).usedFiles ∨
        "/proj/App.vue" ∈ (analyzeProject cfgEx inpEx).unusedFiles) ∧
    ("/proj/App.vue" ∉ (analyzeProject cfgEx inpEx).usedFiles →
      "/proj/App.vue" ∉ (analyzeProject cfgEx inpEx).unusedFiles →
      ∃ sources, (analyzeProject cfgEx inpEx).bundleAnalysis = some sources ∧
        "/proj/App.vue" ∈ sources ∧ cfgEx.bundle = true) :=
  C4_amended_partition cfgEx inpEx "/proj/App.vue" (by decide) rfl

/-- C5: the bundle-aware unused list both replaces `unusedFiles` and is a
subset of the static unused set — each of its members is in `allFiles`
and outside `usedFiles`, so bundle correlation only rescues, never flags. -/
theorem C5_rescue_only (cfg : Config) (inp : ProjectInput)
    (corr : Correlation) (f : String)
    (hc : (analyzeProject cfg inp).bundleCorrelation = some corr)
    (hf : f ∈ corr.bundleUnusedFiles) :
    (analyzeProject cfg inp).unusedFiles = corr.bundleUnusedFiles ∧
    f ∈ (analyzeProject cfg inp).allFiles ∧
    f ∉ (analyzeProject cfg inp).usedFiles := by
  cases hba : bundleAnalysisOf cfg inp with
  | none =>
      rw [analyzeProject_bundleCorrelation_none hba] at hc
      cases hc
  | some sources =>
      rw [analyzeProject_bundleCorrelation_some hba] at hc
      have hcorr := (Option.some.inj hc).symm
      subst hcorr
      rcases (mem_bundleUnused_iff _ _ _ f).mp hf with ⟨h1, _, h3⟩
      refine ⟨analyzeProject_unusedFiles_some hba, ?_, ?_⟩
      · rw [analyzeProject_allFiles]
        exact h1
      · rw [analyzeProject_usedFiles]
        exact h3

def corrB : Correlation :=
  ⟨["/proj/extra.vue"], ["/proj/dead.vue"], ["/proj/dead.vue"]⟩

theorem C5_witness :
    (analyzeProject cfgB inpB).unusedFiles = corrB.bundleUnusedFiles ∧
    "/proj/dead.vue" ∈ (analyzeProject cfgB inpB).allFiles ∧
    "/proj/dead.vue" ∉ (analyzeProject cfgB inpB).usedFiles :=
  C5_rescue_only cfgB inpB corrB "/proj/dead.vue" (by decide) (by decide)

/-! ## Claim C6 -/

theorem find?_const_false {α : Type} (l : List α) :
    l.find? (fun _ => false) = none := by
  induction l with
  | nil => rfl
  | cons x xs ih => simp [List.find?, ih]

theorem any_of_find?_some {α : Type} {p : α → Bool} {l : List α} {a : α}
    (h : l.find? p = some a) : l.any p = true := by
  induction l with
  | nil => cases h
  | cons x xs ih =>
      cases hpx : p x
      · simp only [List.find?, hpx] at h
        simp [List.any_cons, hpx, ih h]
      · simp [List.any_cons, hpx]

theorem any_eq_false_of_find?_none {α : Type} {p : α → Bool} {l : List α}
    (h : l.find? p = none) : l.any p = false := by
  induction l with
  | nil => rfl
  | cons x xs ih =>
      cases hpx : p x
      · simp only [List.find?, hpx] at h
        simp [List.any_cons, hpx, ih h]
      · simp only [List.find?, hpx] at h
        cases h

/-- C6 (amended): for a configured extension list, the source's resolver
follows the claim's step order exactly, with the bare-path fallback
(step 5) amended to succeed on any existing path — file or directory —
since the existence probe does not distinguish the two. -/
theorem C6_amended_resolution_order (fs : Fs) (imp basePath rootDir : String)
    (aliases : List (String × String)) (exts : List String) :
    normalizeImportPath fs imp basePath rootDir aliases (.list exts) =
      amendedResolveSteps fs imp basePath rootDir aliases exts := by
  unfold normalizeImportPath amendedResolveSteps
  cases hex : fs.pathExists (resolveSpecifier imp basePath rootDir aliases) with
  | false =>
      simp only [Exts.iterList, Exts.isAllOrEmpty, hex, Bool.and_false,
        Bool.false_and, if_false, find?_const_false]
  | true =>
      simp only [Exts.iterList, Exts.isAllOrEmpty, hex, Bool.and_true]
      cases hemp : exts.isEmpty with
      | true =>
          have hnil : exts = [] := by
            cases exts with
            | nil => rfl
            | cons x xs => cases hemp
          subst hnil
          simp
      | false =>
          simp only [hemp, Bool.false_eq_true, if_false]
          cases hfind : exts.find? (fun ext => strEndsWith
              (resolveSpecifier imp basePath rootDir aliases) ext) with
          | some e =>
              have hany := any_of_find?_some hfind
              simp only [hfind, hany, if_true]
          | none =>
              have hany := any_eq_false_of_find?_none hfind
              simp only [hfind, hany, Bool.false_eq_true, if_false]

def fsC6 : Fs := ⟨[], ["/proj", "/proj/foo"]⟩

/-- C6 (counterexample): when the bare substituted path exists only as a
directory (no matching file, appended extension, or index file), the
source resolver returns that directory at its fallback step, whereas the
claim's step list ("exists as a file", else NOT_FOUND) yields `none`. -/
theorem C6_counterexample :
    normalizeImportPath fsC6 "./foo" "/proj/a.js" "/proj" [] (.list [".js"]) =
      some "/proj/foo" ∧
    claimResolveSteps fsC6 "./foo" "/proj/a.js" "/proj" [] [".js"] = none ∧
    "/proj/foo" ∉ fsC6.files ∧ "/proj/foo" ∈ fsC6.dirs := by
  decide

/-! ## Claim C7 -/

/-- C7: a bare package specifier is excluded from every file's specifier
set (so it is never handed to the resolver and triggers no existence
probe); every graph edge stems from some non-package specifier's
successful resolution; and every used file is an entry seed or such a
resolution's canonicalised target. -/
theorem C7_package_never_resolved (cfg : Config) (inp : ProjectInput) (imp : String)
    (hpkg : isPackageImport imp (sortedAliases cfg) = true) :
    (∀ fc ∈ inp.files, imp ∉ fileImports (sortedAliases cfg) fc.2) ∧
    (∀ e ∈ (analyzeProject cfg inp).graphEdges, ∃ fc ∈ inp.files,
      ∃ imp2 ∈ fileImports (sortedAliases cfg) fc.2,
        isPackageImport imp2 (sortedAliases cfg) = false ∧
        ∃ target, normalizeImportPath inp.fs imp2 fc.1 cfg.rootDir
            (sortedAliases cfg) cfg.extensions = some target ∧
          e = (inp.realpath fc.1, inp.realpath target)) ∧
    (∀ u ∈ (analyzeProject cfg inp).usedFiles,
      u ∈ entryUsedOf cfg inp ∨
        ∃ e ∈ (analyzeProject cfg inp).graphEdges, u = e.2) := by
  refine ⟨?_, ?_, ?_⟩
  · intro fc _ h
    have := not_package_of_mem_fileImports h
    rw [hpkg] at this
    cases this
  · rw [analyzeProject_graphEdges]
    intro e he
    rcases graphEdgesOf_elim he with ⟨fc, hfc, imp2, himp2, target, hres, rfl⟩
    exact ⟨fc, hfc, imp2, himp2, not_package_of_mem_fileImports himp2,
      target, hres, rfl⟩
  · rw [analyzeProject_usedFiles, analyzeProject_graphEdges]
    intro u hu
    exact usedFilesOf_elim hu

theorem C7_witness :
    (∀ fc ∈ inpEx.files, "lodash" ∉ fileImports (sortedAliases cfgEx) fc.2) ∧
    (∀ e ∈ (analyzeProject cfgEx inpEx).graphEdges, ∃ fc ∈ inpEx.files,
      ∃ imp2 ∈ fileImports (sortedAliases cfgEx) fc.2,
        isPackageImport imp2 (sortedAliases cfgEx) = false ∧
        ∃ target, normalizeImportPath inpEx.fs imp2 fc.1 cfgEx.rootDir
            (sortedAliases cfgEx) cfgEx.extensions = some target ∧
          e = (inpEx.realpath fc.1, inpEx.realpath target)) ∧
    (∀ u ∈ (analyzeProject cfgEx inpEx).usedFiles,
      u ∈ entryUsedOf cfgEx inpEx ∨
        ∃ e ∈ (analyzeProject cfgEx inpEx).graphEdges, u = e.2) :=
  C7_package_never_resolved cfgEx inpEx "lodash" (by decide)

/-! ## Claim C8 -/

def cfgC8 : Config := ⟨"/proj", [], .list [".js"], ["src/main"], false, "/proj/dist"⟩

def inpC8 : ProjectInput :=
  ⟨⟨["/proj/src/main.js"], ["/proj", "/proj/src"]⟩,
   [("/proj/src/main.js", .plain ⟨true, []⟩)], id, []⟩

/-- C8 (counterexample): entry seeding performs no alias or extension
resolution — an extensionless configured entry is seeded as the bare
resolved path, so the on-disk entry file (which extension resolution
would find) lands in `unusedFiles` instead of `usedFiles`. -/
theorem C8_counterexample :
    cfgC8.entry = ["src/main"] ∧
    normalizeImportPath inpC8.fs "./src/main" "/proj/x" "/proj" []
      (.list [".js"]) = some "/proj/src/main.js" ∧
    "/proj/src/main.js" ∈ inpC8.fs.files ∧
    "/proj/src/main.js" ∉ (analyzeProject cfgC8 inpC8).usedFiles ∧
    (analyzeProject cfgC8 inpC8).usedFiles = ["/proj/src/main"] ∧
    (analyzeProject cfgC8 inpC8).unusedFiles = ["/proj/src/main.js"] := by
  decide

/-- C8 (amended): every configured entry point, resolved against the
project root by plain path resolution (no alias substitution, no
extension appending) and canonicalised, appears in `usedFiles` even with
zero inbound edges: the used set is seeded with it up front. -/
theorem C8_amended_entry_seed (cfg : Config) (inp : ProjectInput) (e : String)
    (he : e ∈ cfg.entry) :
    inp.realpath (pathResolve cfg.rootDir e) ∈ (analyzeProject cfg inp).usedFiles := by
  rw [analyzeProject_usedFiles]
  exact mem_usedFilesOf_of_entry he

theorem C8_witness :
    "/proj/src/main.js" ∈ (analyzeProject cfgEx inpEx).usedFiles :=
  C8_amended_entry_seed cfgEx inpEx "src/main.js" (by decide)

/-! ## Claim C9 -/

def tplC9bad : String :=
  String.mk
    ('<' :: 'c' :: 'o' :: 'm' :: 'p' :: 'o' :: 'n' :: 'e' :: 'n' :: 't' :: ' ' ::
      ':' :: 'i' :: 's' :: '=' :: dquote :: 'F' :: 'o' :: 'o' :: dquote ::
      '/' :: '>' :: [])

/-- C9 (counterexample): a dynamic-component binding whose value is a bare
identifier expression — the markup text form of the claim's example —
is not extracted: the pattern requires the value to be a quoted string
literal inside the binding, so `Foo` is not credited. -/
theorem C9_counterexample :
    getTemplateTags tplC9bad = [] ∧
    "Foo" ∉ getTemplateTags tplC9bad ∧
    getUsedImportSources (getTemplateTags tplC9bad) [("Foo", "./Foo.vue")] = [] := by
  decide

def isPreC9 : List Char := ("<component :is=".data) ++ [dquote, squote]

def isSufC9 : List Char := [squote, dquote, '/', '>']

/-- C9 (amended): the `:is` extraction fires when the binding's value is a
quoted string literal: for any nonempty quote-free `name`, a template
containing the single-quoted binding form yields `name` as a template tag,
and a default-import binding of `name` is credited as used. -/
theorem C9_amended_quoted_is_value (name : String) (tail : List Char)
    (comps : List (String × String)) (spec : String)
    (hne : name.data ≠ [])
    (hq : ∀ c ∈ name.data, isQuote c = false)
    (hbind : mapGet comps name = some spec) :
    name ∈ getTemplateTags (String.mk (isPreC9 ++ (name.data ++ (isSufC9 ++ tail)))) ∧
    spec ∈ getUsedImportSources
      (getTemplateTags (String.mk (isPreC9 ++ (name.data ++ (isSufC9 ++ tail))))) comps := by
  have hwalk : ∀ l : List Char,
      scanIsGo .idle (isPreC9 ++ l) = scanIsGo (.body []) l := fun l => rfl
  have hscan : name ∈ scanIsProps (isPreC9 ++ (name.data ++ (isSufC9 ++ tail))) := by
    unfold scanIsProps
    rw [hwalk]
    have hsuf : name.data ++ (isSufC9 ++ tail) =
        name.data ++ squote :: (dquote :: '/' :: '>' :: tail) := rfl
    rw [hsuf]
    have := mem_scanIsGo_body name.data [] squote (dquote :: '/' :: '>' :: tail)
      hq (by decide) (by simpa using hne)
    simpa [strMk_data] using this
  have hmem : name ∈ getTemplateTags (String.mk (isPreC9 ++ (name.data ++ (isSufC9 ++ tail)))) :=
    mem_getTemplateTags_of_scanIs hscan
  exact ⟨hmem, mem_getUsedImportSources_of_tag hmem hbind⟩

theorem C9_witness :
    "Foo" ∈ getTemplateTags (String.mk (isPreC9 ++ ("Foo".data ++ (isSufC9 ++ [])))) ∧
    "./Foo.vue" ∈ getUsedImportSources
      (getTemplateTags (String.mk (isPreC9 ++ ("Foo".data ++ (isSufC9 ++ [])))))
      [("Foo", "./Foo.vue")] :=
  C9_amended_quoted_is_value "Foo" [] [("Foo", "./Foo.vue")] "./Foo.vue"
    (by decide) (by decide) (by decide)

/-! ## Claim C10 -/

/-- C10: the markup channel is purely additive — every non-package
specifier found by plain import extraction on a file's script region is in
the file's specifier set (markup analysis can only add, never remove or
filter), so a statically imported file whose binding is never referenced
elsewhere still gains an inbound edge and is marked used once its
specifier resolves. -/
theorem C10_markup_additive (cfg : Config) (inp : ProjectInput)
    (p : String) (d : FileData)
    (hf : (p, d) ∈ inp.files) (imp : String)
    (himp : imp ∈ extractImports d.scriptOf)
    (hnp : isPackageImport imp (sortedAliases cfg) = false) :
    imp ∈ fileImports (sortedAliases cfg) d ∧
    (∀ target, normalizeImportPath inp.fs imp p cfg.rootDir (sortedAliases cfg)
        cfg.extensions = some target →
      (inp.realpath p, inp.realpath target) ∈ (analyzeProject cfg inp).graphEdges ∧
      inp.realpath target ∈ (analyzeProject cfg inp).usedFiles) := by
  have h1 := mem_fileImports_of_extract himp hnp
  refine ⟨h1, ?_⟩
  intro target hres
  have hedge := @mem_fileEdges_of inp.fs (sortedAliases cfg) cfg.extensions
    cfg.rootDir inp.realpath (p, d) imp target h1 hres
  have hg := mem_graphEdgesOf_of hf hedge
  exact ⟨by rw [analyzeProject_graphEdges]; exact hg,
    by rw [analyzeProject_usedFiles]; exact mem_usedFilesOf_of_edge hg⟩

theorem C10_witness :
    "../App.vue" ∈ fileImports (sortedAliases cfgEx) (.plain scriptMain) ∧
    (∀ target, normalizeImportPath inpEx.fs "../App.vue" "/proj/src/main.js"
        cfgEx.rootDir (sortedAliases cfgEx) cfgEx.extensions = some target →
      (inpEx.realpath "/proj/src/main.js", inpEx.realpath target) ∈
        (analyzeProject cfgEx inpEx).graphEdges ∧
      inpEx.realpath target ∈ (analyzeProject cfgEx inpEx).usedFiles) :=
  C10_markup_additive cfgEx inpEx "/proj/src/main.js" (.plain scriptMain)
    (by decide) "../App.vue" (by decide) (by decide)

end VueUnused
